import Mathlib

/-!
Verification of the file-organiser classification pipeline
(`organise_files.py`): sanitisation, regex title extraction,
move-into-folder with collision skip, and recursive mtime sync.

The filesystem is embedded as a tree of entries; machine `st_mtime`
values are modelled as `Nat`.  The two `re` patterns are embedded via a
small backtracking matcher mirroring CPython `re` semantics for the
constructs the patterns use (greedy/lazy star, plus, optional, character
classes, one named capture group, `$`).
-/

namespace Organiser

/-- Python whitespace set used by `str.strip` and by `\s` in `re`
(ASCII whitespace, the C1 separators, and the Unicode space characters). -/
def isSpacePy (c : Char) : Bool :=
  let n := c.toNat
  (decide (9 ≤ n) && decide (n ≤ 13)) ||
  (decide (28 ≤ n) && decide (n ≤ 32)) ||
  n == 133 || n == 160 || n == 5760 ||
  (decide (8192 ≤ n) && decide (n ≤ 8202)) ||
  n == 8232 || n == 8233 || n == 8239 || n == 8287 || n == 12288

/-- `\d` of the source patterns (decimal digits; non-ASCII Unicode digits
are not modelled). -/
def isDigitPy (c : Char) : Bool :=
  c.isDigit

/-- `[0-9A-Fa-f]` of the Episode pattern. -/
def isHexPy (c : Char) : Bool :=
  let n := c.toNat
  (decide (48 ≤ n) && decide (n ≤ 57)) ||
  (decide (65 ≤ n) && decide (n ≤ 70)) ||
  (decide (97 ≤ n) && decide (n ≤ 102))

/-- `[A-Za-z0-9]` (the extension class of both patterns). -/
def isAlnumAscii (c : Char) : Bool :=
  let n := c.toNat
  (decide (48 ≤ n) && decide (n ≤ 57)) ||
  (decide (65 ≤ n) && decide (n ≤ 90)) ||
  (decide (97 ≤ n) && decide (n ≤ 122))

/-- `INVALID_CHARS = re.compile(r'[\\/:*?"<>|]')`. -/
def isInvalidChar (c : Char) : Bool :=
  c == '\\' || c == '/' || c == ':' || c == '*' || c == '?' ||
  c == '"' || c == '<' || c == '>' || c == '|'

/-- `INVALID_CHARS.sub("_", name)` on the character list. -/
def replaceInvalid (cs : List Char) : List Char :=
  cs.map (fun c => if isInvalidChar c then '_' else c)

/-- Python `str.strip()` on a character list. -/
def pyStrip (cs : List Char) : List Char :=
  ((cs.dropWhile isSpacePy).reverse.dropWhile isSpacePy).reverse

/-- `sanitize`: replace filesystem-forbidden characters with underscores,
then strip surrounding whitespace (`INVALID_CHARS.sub("_", name).strip()`). -/
def sanitize (s : String) : String :=
  String.mk (pyStrip (replaceInvalid s.data))

/-- Regular-expression fragments used by the two source patterns. -/
inductive RE where
  | lit (c : Char) : RE
  | cls (p : Char → Bool) : RE
  | seq (rs : List RE) : RE
  | star (greedy : Bool) (r : RE) : RE
  | plus (greedy : Bool) (r : RE) : RE
  | opt (greedy : Bool) (r : RE) : RE
  | group (r : RE) : RE
  | endA : RE

/-- Capture state of the single `title` group. -/
abbrev Capt := Option (List Char)

/-- Backtracking matcher in continuation style, mirroring CPython `re`
preference order: greedy repetition tries the body first, lazy repetition
tries the continuation first, an optional piece tries presence first.
Star bodies in the source patterns always consume a character, which the
explicit progress check enforces.  `fuel` bounds the call depth; the
top-level wrapper supplies more than any path through these patterns
can use. -/
def reMatch : Nat → RE → List Char → Capt → (List Char → Capt → Option Capt) → Option Capt
  | 0, _, _, _, _ => none
  | fuel + 1, r, s, cap, k =>
    match r with
    | .lit c =>
      match s with
      | [] => none
      | c2 :: s2 => if c2 = c then k s2 cap else none
    | .cls p =>
      match s with
      | [] => none
      | c2 :: s2 => if p c2 then k s2 cap else none
    | .seq [] => k s cap
    | .seq (r1 :: rs) =>
      reMatch fuel r1 s cap (fun s2 cap2 => reMatch fuel (.seq rs) s2 cap2 k)
    | .star g r1 =>
      let iter := reMatch fuel r1 s cap (fun s2 cap2 =>
        if s2.length < s.length then reMatch fuel (.star g r1) s2 cap2 k else none)
      if g then
        match iter with
        | some res => some res
        | none => k s cap
      else
        match k s cap with
        | some res => some res
        | none => iter
    | .plus g r1 =>
      reMatch fuel r1 s cap (fun s2 cap2 => reMatch fuel (.star g r1) s2 cap2 k)
    | .opt g r1 =>
      if g then
        match reMatch fuel r1 s cap k with
        | some res => some res
        | none => k s cap
      else
        match k s cap with
        | some res => some res
        | none => reMatch fuel r1 s cap k
    | .group r1 =>
      reMatch fuel r1 s cap (fun s2 _ => k s2 (some (s.take (s.length - s2.length))))
    | .endA =>
      if s.isEmpty || s == ['\n'] then k s cap else none

/-- Fuel bound: generous w.r.t. the maximal call depth of either pattern. -/
def fuelFor (cs : List Char) : Nat :=
  20 * cs.length + 400

/-- Episode pattern (first element of `PATTERNS`):
`^\s*\[[^\]]+\]\s+(?P<title>.*?)\s*-\s*(?:\d+(?:\.\d+)?(?:v\d+)?)(?:\s*\([^)]+\))?\s*\[[0-9A-Fa-f]+\]\.[A-Za-z0-9]+$` -/
def pat1 : RE :=
  .seq [
    .star true (.cls isSpacePy),
    .lit '[', .plus true (.cls (fun c => !(c == ']'))), .lit ']',
    .plus true (.cls isSpacePy),
    .group (.star false (.cls (fun c => !(c == '\n')))),
    .star true (.cls isSpacePy), .lit '-', .star true (.cls isSpacePy),
    .plus true (.cls isDigitPy),
    .opt true (.seq [.lit '.', .plus true (.cls isDigitPy)]),
    .opt true (.seq [.lit 'v', .plus true (.cls isDigitPy)]),
    .opt true (.seq [.star true (.cls isSpacePy),
                     .lit '(', .plus true (.cls (fun c => !(c == ')'))), .lit ')']),
    .star true (.cls isSpacePy),
    .lit '[', .plus true (.cls isHexPy), .lit ']',
    .lit '.', .plus true (.cls isAlnumAscii),
    .endA ]

/-- Movie pattern (second element of `PATTERNS`):
`^\s*(?:\[[^\]]+\]\s+)?(?P<title>.+?)\s*\(\d{4}\).*?\.[A-Za-z0-9]+$` -/
def pat2 : RE :=
  .seq [
    .star true (.cls isSpacePy),
    .opt true (.seq [.lit '[', .plus true (.cls (fun c => !(c == ']'))), .lit ']',
                     .plus true (.cls isSpacePy)]),
    .group (.plus false (.cls (fun c => !(c == '\n')))),
    .star true (.cls isSpacePy),
    .lit '(', .cls isDigitPy, .cls isDigitPy, .cls isDigitPy, .cls isDigitPy, .lit ')',
    .star false (.cls (fun c => !(c == '\n'))),
    .lit '.', .plus true (.cls isAlnumAscii),
    .endA ]

/-- `pat.match(filename)` followed by `m.group("title")`: `none` when the
pattern does not match (anchored at the start), otherwise the raw capture. -/
def pmatch (r : RE) (s : String) : Option String :=
  match reMatch (fuelFor s.data) r s.data none (fun _ c => some c) with
  | none => none
  | some cap => some (String.mk (cap.getD []))

/-- The ordered pattern list `PATTERNS`. -/
def PATTERNS : List RE := [pat1, pat2]

/-- The `for pat in PATTERNS` loop body of `extract_title`. -/
def tryPatterns : List RE → String → Option String
  | [], _ => none
  | p :: ps, f =>
    match pmatch p f with
    | some g => some (sanitize g)
    | none => tryPatterns ps f

/-- `extract_title`: the sanitized capture of the first matching pattern,
or `None`. -/
def extract_title (filename : String) : Option String :=
  tryPatterns PATTERNS filename

/-- A filesystem entry: a regular file (name, contents, `st_mtime`), a
directory (name, `st_atime`, `st_mtime`, children), or a non-regular,
non-directory entry such as a named pipe or socket (`is_dir()` and
`is_file()` are both false on it). -/
inductive FSEntry where
  | file (name content : String) (mtime : Nat) : FSEntry
  | dir (name : String) (atime mtime : Nat) (children : List FSEntry) : FSEntry
  | other (name : String) (mtime : Nat) : FSEntry

def nameOf : FSEntry → String
  | .file n _ _ => n
  | .dir n _ _ _ => n
  | .other n _ => n

/-- `entry.is_dir()`. -/
def isDirE : FSEntry → Bool
  | .dir _ _ _ _ => true
  | _ => false

/-- `entry.is_file()` (a regular file). -/
def isFileE : FSEntry → Bool
  | .file _ _ _ => true
  | _ => false

def childrenOf : FSEntry → List FSEntry
  | .dir _ _ _ cs => cs
  | _ => []

/-- A moved entry appears at the end of the destination's listing. -/
def appendChild : FSEntry → FSEntry → FSEntry
  | .dir n a m cs, e => .dir n a m (cs ++ [e])
  | d, _ => d

/-- First entry with the given name (path lookup among siblings). -/
def findByName (es : List FSEntry) (t : String) : Option FSEntry :=
  es.find? (fun d => nameOf d = t)

/-- `(folder / n).exists()` relative to the folder's listing. -/
def childNamed (cs : List FSEntry) (n : String) : Bool :=
  cs.any (fun c => nameOf c = n)

/-- Remove the sibling with the given name (the source side of
`shutil.move`). -/
def eraseByName : List FSEntry → String → List FSEntry
  | [], _ => []
  | e :: es, n => if nameOf e = n then es else e :: eraseByName es n

/-- Append a child to the sibling directory with the given name (the
destination side of `shutil.move`). -/
def addChildToDir : List FSEntry → String → FSEntry → List FSEntry
  | [], _, _ => []
  | d :: es, t, e => if nameOf d = t then appendChild d e :: es else d :: addChildToDir es t e

/-- `dest_dir.mkdir(exist_ok=True)`: reuse an existing directory, raise
`FileExistsError` (`none`) if a non-directory bears the name, otherwise
create an empty directory.  The creation timestamp is not modelled (it is
never observed: the sync pass overwrites a folder's times whenever the
folder holds a regular file, and no claim reads it otherwise). -/
def mkdirExistOk (es : List FSEntry) (t : String) : Option (List FSEntry) :=
  match findByName es t with
  | some d => if isDirE d then some es else none
  | none => some (es ++ [.dir t 0 0 []])

/-- One line of console output from `organise`. -/
inductive LogLine where
  | skippedL (folder name : String) : LogLine
  | movedL (name folder : String) : LogLine
  | summaryL (moved : Nat) : LogLine
  | errorL : LogLine
deriving DecidableEq

/-- Organiser state: the root's current listing, the `moved` counter, the
console output so far, and the arguments `extract_title` has been called
with (in call order). -/
structure OrgState where
  entries : List FSEntry
  moved : Nat
  log : List LogLine
  calls : List String

/-- The body of `organise`'s scan loop for a single directory entry
(lines 87-104 of the source): skip directories; extract a title; skip
falsy titles; create/reuse the TitleFolder; skip on destination
collision; otherwise move the file.  `none` is an uncaught
`FileExistsError` from `mkdir`. -/
def processEntry (st : OrgState) (e : FSEntry) : Option OrgState :=
  if isDirE e then some st
  else
    match extract_title (nameOf e) with
    | none => some { st with calls := st.calls ++ [nameOf e] }
    | some t =>
      if t = "" then some { st with calls := st.calls ++ [nameOf e] }
      else
        match mkdirExistOk st.entries t with
        | none => none
        | some es1 =>
          if childNamed (childrenOf ((findByName es1 t).getD (.dir t 0 0 []))) (nameOf e) then
            some { st with
                   entries := es1,
                   log := st.log ++ [.skippedL t (nameOf e)],
                   calls := st.calls ++ [nameOf e] }
          else
            some { st with
                   entries := addChildToDir (eraseByName es1 (nameOf e)) t e,
                   moved := st.moved + 1,
                   log := st.log ++ [.movedL (nameOf e) t],
                   calls := st.calls ++ [nameOf e] }

/-- The scan loop over the root's listing. -/
def scanPass : OrgState → List FSEntry → Option OrgState
  | st, [] => some st
  | st, e :: es =>
    match processEntry st e with
    | none => none
    | some st2 => scanPass st2 es

mutual

/-- The recursive regular-file mtimes under an entry
(`folder.rglob("*")` filtered by `is_file()`), via the children list. -/
def rglobM : FSEntry → List Nat
  | .file _ _ m => [m]
  | .other _ _ => []
  | .dir _ _ _ cs => rglobL cs

/-- Recursive regular-file mtimes of a listing. -/
def rglobL : List FSEntry → List Nat
  | [] => []
  | e :: es => rglobM e ++ rglobL es

end

/-- `sync_folder_mtime(folder)`: set the folder's atime and mtime to the
newest contained regular-file mtime; leave it untouched when there is
none.  Non-directories are never passed by `organise`; returned
unchanged. -/
def sync_folder_mtime (e : FSEntry) : FSEntry :=
  match e with
  | .dir n a m cs =>
    match (rglobL cs).max? with
    | some newest => .dir n newest newest cs
    | none => .dir n a m cs
  | e => e

/-- The sync pass over the final listing: every first-level directory is
synchronised. -/
def syncPass (es : List FSEntry) : List FSEntry :=
  es.map (fun e => if isDirE e then sync_folder_mtime e else e)

/-- `organise(root)`: scan pass over a snapshot of the root's listing,
sync pass, summary line.  `none` is an uncaught per-file exception. -/
def organise (entries : List FSEntry) : Option OrgState :=
  match scanPass ⟨entries, 0, [], []⟩ entries with
  | none => none
  | some st =>
    some { st with
           entries := syncPass st.entries,
           log := st.log ++ [.summaryL st.moved] }

/-- The `__main__` block: `target` is `none` when the resolved argument
does not exist or is not a directory (then `sys.exit` with a message:
status 1), otherwise the directory's listing.  An exception escaping
`organise` also terminates with status 1. -/
def runMain (target : Option (List FSEntry)) : Nat × List LogLine :=
  match target with
  | none => (1, [LogLine.errorL])
  | some es =>
    match organise es with
    | some st => (0, st.log)
    | none => (1, [])

/-! ### Sanitizer lemmas -/

lemma isInvalidChar_of_mem_replaceInvalid {c : Char} {l : List Char}
    (h : c ∈ replaceInvalid l) : isInvalidChar c = false := by
  simp only [replaceInvalid, List.mem_map] at h
  obtain ⟨a, -, ha⟩ := h
  cases hI : isInvalidChar a with
  | true => rw [hI, if_pos rfl] at ha; rw [← ha]; decide
  | false => rw [hI] at ha; simp at ha; rw [← ha]; exact hI

lemma replaceInvalid_eq_self {l : List Char}
    (h : ∀ c ∈ l, isInvalidChar c = false) : replaceInvalid l = l := by
  induction l with
  | nil => rfl
  | cons c t ih =>
    have hc := h c (List.mem_cons_self c t)
    simp only [replaceInvalid, List.map_cons, hc, Bool.false_eq_true, if_false]
    exact congrArg (c :: ·) (ih fun x hx => h x (List.mem_cons_of_mem c hx))

lemma dropWhile_eq_self_of_head {l : List Char}
    (h : ∀ c, l.head? = some c → isSpacePy c = false) :
    l.dropWhile isSpacePy = l := by
  cases l with
  | nil => rfl
  | cons c t =>
    have := h c rfl
    simp [List.dropWhile_cons, this]

lemma head_dropWhile_false (l : List Char) :
    ∀ c, (l.dropWhile isSpacePy).head? = some c → isSpacePy c = false := by
  induction l with
  | nil => intro c h; simp at h
  | cons a t ih =>
    intro c h
    by_cases hs : isSpacePy a
    · rw [List.dropWhile_cons, if_pos hs] at h; exact ih c h
    · rw [List.dropWhile_cons, if_neg hs] at h
      simp at h
      rw [← h]
      exact Bool.eq_false_iff.mpr hs

lemma dropWhile_decomp (l : List Char) :
    ∃ post, (∀ c ∈ post, isSpacePy c = true) ∧
      l.dropWhile isSpacePy = pyStrip l ++ post := by
  refine ⟨((l.dropWhile isSpacePy).reverse.takeWhile isSpacePy).reverse,
    fun c hc => List.mem_takeWhile_imp (List.mem_reverse.mp hc), ?_⟩
  have h2 := List.takeWhile_append_dropWhile isSpacePy (l.dropWhile isSpacePy).reverse
  calc l.dropWhile isSpacePy
      = (l.dropWhile isSpacePy).reverse.reverse := (List.reverse_reverse _).symm
    _ = ((l.dropWhile isSpacePy).reverse.takeWhile isSpacePy ++
          (l.dropWhile isSpacePy).reverse.dropWhile isSpacePy).reverse := by rw [h2]
    _ = pyStrip l ++ ((l.dropWhile isSpacePy).reverse.takeWhile isSpacePy).reverse := by
          rw [List.reverse_append]; rfl

lemma pyStrip_decomp (l : List Char) :
    ∃ pre post, (∀ c ∈ pre, isSpacePy c = true) ∧ (∀ c ∈ post, isSpacePy c = true) ∧
      l = pre ++ pyStrip l ++ post := by
  obtain ⟨post, hpost, hd⟩ := dropWhile_decomp l
  refine ⟨l.takeWhile isSpacePy, post, fun c hc => List.mem_takeWhile_imp hc, hpost, ?_⟩
  conv_lhs => rw [← List.takeWhile_append_dropWhile isSpacePy l]
  rw [hd, List.append_assoc]

lemma mem_of_mem_pyStrip {c : Char} {l : List Char} (h : c ∈ pyStrip l) : c ∈ l := by
  obtain ⟨pre, post, -, -, hl⟩ := pyStrip_decomp l
  rw [hl]
  simp [h]

lemma pyStrip_head_not_space {l : List Char} :
    ∀ c, (pyStrip l).head? = some c → isSpacePy c = false := by
  intro c h
  obtain ⟨post, -, hd⟩ := dropWhile_decomp l
  cases hs : pyStrip l with
  | nil => rw [hs] at h; simp at h
  | cons x t =>
    rw [hs] at h
    simp at h
    rw [← h]
    refine head_dropWhile_false l x ?_
    rw [hd, hs]
    rfl

lemma pyStrip_getLast_not_space {l : List Char} :
    ∀ c, (pyStrip l).getLast? = some c → isSpacePy c = false := by
  intro c h
  have hrev : (pyStrip l).getLast? =
      ((l.dropWhile isSpacePy).reverse.dropWhile isSpacePy).head? := by
    show ((l.dropWhile isSpacePy).reverse.dropWhile isSpacePy).reverse.getLast? = _
    rw [List.getLast?_reverse]
  rw [hrev] at h
  exact head_dropWhile_false _ c h

lemma pyStrip_idem (l : List Char) : pyStrip (pyStrip l) = pyStrip l := by
  have h1 : (pyStrip l).dropWhile isSpacePy = pyStrip l :=
    dropWhile_eq_self_of_head fun c hc => pyStrip_head_not_space c hc
  have h2 : (pyStrip l).reverse.dropWhile isSpacePy = (pyStrip l).reverse := by
    refine dropWhile_eq_self_of_head fun c hc => ?_
    rw [List.head?_reverse] at hc
    exact pyStrip_getLast_not_space c hc
  show (((pyStrip l).dropWhile isSpacePy).reverse.dropWhile isSpacePy).reverse = pyStrip l
  rw [h1, h2, List.reverse_reverse]

lemma sanitize_data (s : String) :
    (sanitize s).data = pyStrip (replaceInvalid s.data) := rfl

lemma sanitize_mem_not_invalid (s : String) :
    ∀ c ∈ (sanitize s).data, isInvalidChar c = false := by
  intro c hc
  rw [sanitize_data] at hc
  exact isInvalidChar_of_mem_replaceInvalid (mem_of_mem_pyStrip hc)

/-- C6: For every input string, `sanitize` returns the input with each
filesystem-reserved character replaced by an underscore and surrounding
whitespace stripped: the output contains no reserved character, starts
and ends with a non-whitespace character, and the replaced input splits
as whitespace ++ output ++ whitespace. -/
theorem sanitize_no_reserved (s : String) :
    (∀ c ∈ (sanitize s).data, isInvalidChar c = false) ∧
    (∀ c, (sanitize s).data.head? = some c → isSpacePy c = false) ∧
    (∀ c, (sanitize s).data.getLast? = some c → isSpacePy c = false) ∧
    (∃ pre post, (∀ c ∈ pre, isSpacePy c = true) ∧ (∀ c ∈ post, isSpacePy c = true) ∧
      replaceInvalid s.data = pre ++ (sanitize s).data ++ post) := by
  refine ⟨sanitize_mem_not_invalid s, ?_, ?_, ?_⟩
  · intro c hc
    rw [sanitize_data] at hc
    exact pyStrip_head_not_space c hc
  · intro c hc
    rw [sanitize_data] at hc
    exact pyStrip_getLast_not_space c hc
  · obtain ⟨pre, post, h1, h2, h3⟩ := pyStrip_decomp (replaceInvalid s.data)
    exact ⟨pre, post, h1, h2, by rw [sanitize_data, ← h3]⟩

/-- Closed instance of `sanitize_no_reserved` at a concrete input. -/
theorem sanitize_no_reserved_witness : isInvalidChar 'a' = false :=
  (sanitize_no_reserved "  a/b:c  ").1 'a' (by decide)

/-- C7: `sanitize` is idempotent: `sanitize (sanitize s) = sanitize s`. -/
theorem sanitize_idem (s : String) : sanitize (sanitize s) = sanitize s := by
  have hrepl : replaceInvalid (sanitize s).data = (sanitize s).data :=
    replaceInvalid_eq_self (sanitize_mem_not_invalid s)
  show String.mk (pyStrip (replaceInvalid (sanitize s).data)) = sanitize s
  rw [hrepl, sanitize_data, pyStrip_idem]
  rfl

/-! ### Title extractor: scenarios and priority -/

/-- C4: `extract_title` returns exactly the spec's scenario outputs on
its scenario inputs (the two Episode-pattern filenames and the
Movie-pattern filename). -/
theorem extract_title_scenarios :
    extract_title "[SubsPlease] Series Title - 03v2 (720p) [ABCDEF12].mkv"
        = some "Series Title" ∧
    extract_title "[SubsPlease] Aparida - 09.5 (720p) [F40254DB].mkv"
        = some "Aparida" ∧
    extract_title "I Want to Eat Your Pancreas (2018) 1080p AV1 Opus [UnAV1Chain] v2.mkv"
        = some "I Want to Eat Your Pancreas" := by
  refine ⟨?_, ?_, ?_⟩ <;> decide

/-- C3: `extract_title` tries the Episode pattern first and the Movie
pattern second, returns the sanitized capture of the first pattern that
matches (anchored at the start, as `pat.match` is), and returns `none`
when neither matches; `randomfile.txt` matches neither pattern, and the
Organizer leaves such a file at the root, creating no folder for it. -/
theorem extract_title_priority (s : String) :
    (∀ g, pmatch pat1 s = some g → extract_title s = some (sanitize g)) ∧
    (pmatch pat1 s = none → ∀ g, pmatch pat2 s = some g →
        extract_title s = some (sanitize g)) ∧
    (pmatch pat1 s = none → pmatch pat2 s = none → extract_title s = none) ∧
    extract_title "randomfile.txt" = none ∧
    organise [FSEntry.file "randomfile.txt" "data" 7] =
      some ⟨[FSEntry.file "randomfile.txt" "data" 7], 0,
            [LogLine.summaryL 0], ["randomfile.txt"]⟩ := by
  refine ⟨?_, ?_, ?_, by decide, by rfl⟩
  · intro g hg
    simp [extract_title, tryPatterns, PATTERNS, hg]
  · intro h1 g hg
    simp [extract_title, tryPatterns, PATTERNS, h1, hg]
  · intro h1 h2
    simp [extract_title, tryPatterns, PATTERNS, h1, h2]

/-- Closed instance of `extract_title_priority`: neither pattern matches
`randomfile.txt`, so the extractor reports no match. -/
theorem extract_title_priority_witness : extract_title "randomfile.txt" = none :=
  (extract_title_priority "randomfile.txt").2.2.1 (by decide) (by decide)

/-! ### Folder timestamp synchronizer -/

/-- C5: for a directory whose recursive regular-file mtime set is
non-empty, `sync_folder_mtime` sets both the atime and the mtime to the
maximum contained mtime and changes nothing else (name and children,
hence all file contents, unchanged); for an empty set it returns the
directory untouched.  Non-directory entries (never passed by the
organiser) are returned unchanged. -/
theorem sync_folder_mtime_spec (n : String) (a m : Nat) (cs : List FSEntry) :
    (rglobL cs ≠ [] →
      ∃ newest, sync_folder_mtime (.dir n a m cs) = .dir n newest newest cs ∧
        newest ∈ rglobL cs ∧ ∀ x ∈ rglobL cs, x ≤ newest) ∧
    (rglobL cs = [] → sync_folder_mtime (.dir n a m cs) = .dir n a m cs) := by
  constructor
  · intro hne
    cases hmax : (rglobL cs).max? with
    | none =>
      rw [List.max?_eq_none_iff] at hmax
      exact absurd hmax hne
    | some newest =>
      refine ⟨newest, ?_, ?_, ?_⟩
      · simp [sync_folder_mtime, hmax]
      · exact List.max?_mem (fun x y => max_choice x y) hmax
      · intro x hx
        exact (List.max?_le_iff (fun x y z => Nat.max_le) hmax).mp (le_refl newest) x hx
  · intro he
    have : (rglobL cs).max? = none := by rw [List.max?_eq_none_iff]; exact he
    simp [sync_folder_mtime, this]

/-- Closed instance of `sync_folder_mtime_spec`: a folder holding files
with mtimes 3 and 9 (one nested) gets atime = mtime = 9. -/
theorem sync_folder_mtime_spec_witness :
    sync_folder_mtime (.dir "X" 1 2 [.file "a" "u" 3, .dir "sub" 0 0 [.file "b" "v" 9]])
      = .dir "X" 9 9 [.file "a" "u" 3, .dir "sub" 0 0 [.file "b" "v" 9]] := by
  obtain ⟨newest, heq, hmem, hub⟩ :=
    (sync_folder_mtime_spec "X" 1 2 [.file "a" "u" 3, .dir "sub" 0 0 [.file "b" "v" 9]]).1
      (by decide)
  have h9 : newest = 9 := by
    have h2 : 9 ≤ newest := hub 9 (by decide)
    have h3 : rglobL [.file "a" "u" 3, .dir "sub" 0 0 [.file "b" "v" 9]] = [3, 9] := rfl
    rw [h3] at hmem
    simp at hmem
    rcases hmem with rfl | rfl
    · omega
    · rfl
  rw [heq, h9]

/-! ### Listing-operation lemmas -/

/-- The names of a listing, in order. -/
def rootNames (es : List FSEntry) : List String := es.map nameOf

lemma nameOf_appendChild (d e : FSEntry) : nameOf (appendChild d e) = nameOf d := by
  cases d <;> rfl

lemma isDirE_appendChild {d : FSEntry} (hd : isDirE d = true) (e : FSEntry) :
    isDirE (appendChild d e) = true := by
  cases d <;> simp_all [appendChild, isDirE]

lemma childrenOf_appendChild {d : FSEntry} (hd : isDirE d = true) (e : FSEntry) :
    childrenOf (appendChild d e) = childrenOf d ++ [e] := by
  cases d <;> simp_all [appendChild, isDirE, childrenOf]

lemma mem_of_mem_eraseByName {g : FSEntry} {es : List FSEntry} {n : String}
    (h : g ∈ eraseByName es n) : g ∈ es := by
  induction es with
  | nil => exact absurd h (by simp [eraseByName])
  | cons e es ih =>
    by_cases he : nameOf e = n
    · rw [eraseByName, if_pos he] at h
      exact List.mem_cons_of_mem e h
    · rw [eraseByName, if_neg he] at h
      rcases List.mem_cons.mp h with rfl | h2
      · exact List.mem_cons_self _ _
      · exact List.mem_cons_of_mem e (ih h2)

lemma names_eraseByName (es : List FSEntry) (n : String) :
    rootNames (eraseByName es n) = (rootNames es).erase n := by
  induction es with
  | nil => rfl
  | cons e es ih =>
    by_cases he : nameOf e = n
    · subst he
      rw [eraseByName, if_pos rfl]
      simp only [rootNames, List.map_cons]
      rw [List.erase_cons_head]
    · rw [eraseByName, if_neg he]
      simp only [rootNames, List.map_cons] at ih ⊢
      rw [List.erase_cons_tail (by simp [he]), ih]

lemma mem_eraseByName_of_ne {g : FSEntry} {es : List FSEntry} {n : String}
    (hg : g ∈ es) (hne : nameOf g ≠ n) : g ∈ eraseByName es n := by
  induction es with
  | nil => simp at hg
  | cons e es ih =>
    by_cases he : nameOf e = n
    · rw [eraseByName, if_pos he]
      rcases List.mem_cons.mp hg with rfl | h2
      · exact absurd he hne
      · exact h2
    · rw [eraseByName, if_neg he]
      rcases List.mem_cons.mp hg with rfl | h2
      · exact List.mem_cons_self _ _
      · exact List.mem_cons_of_mem e (ih h2)

lemma findByName_cons_pos {e : FSEntry} {es : List FSEntry} {t : String}
    (h : nameOf e = t) : findByName (e :: es) t = some e := by
  simp [findByName, List.find?_cons_of_pos, h]

lemma findByName_cons_neg {e : FSEntry} {es : List FSEntry} {t : String}
    (h : nameOf e ≠ t) : findByName (e :: es) t = findByName es t := by
  simp only [findByName]
  rw [List.find?_cons_of_neg]
  simp [h]

lemma findByName_eraseByName_ne {es : List FSEntry} {n t : String} (hne : n ≠ t) :
    findByName (eraseByName es n) t = findByName es t := by
  induction es with
  | nil => rfl
  | cons e es ih =>
    by_cases he : nameOf e = n
    · rw [eraseByName, if_pos he, findByName_cons_neg (he ▸ hne)]
    · by_cases ht : nameOf e = t
      · rw [eraseByName, if_neg he, findByName_cons_pos ht, findByName_cons_pos ht]
      · rw [eraseByName, if_neg he, findByName_cons_neg ht, findByName_cons_neg ht, ih]

lemma findByName_mem {es : List FSEntry} {t : String} {d : FSEntry}
    (h : findByName es t = some d) : d ∈ es ∧ nameOf d = t := by
  refine ⟨List.mem_of_find?_eq_some h, ?_⟩
  have := List.find?_some h
  simpa using this

lemma findByName_eq_none {es : List FSEntry} {t : String} :
    findByName es t = none ↔ ∀ g ∈ es, nameOf g ≠ t := by
  simp [findByName, List.find?_eq_none]

lemma findByName_append_none {es es2 : List FSEntry} {t : String}
    (h : findByName es t = none) : findByName (es ++ es2) t = findByName es2 t := by
  induction es with
  | nil => rfl
  | cons e es ih =>
    have he : nameOf e ≠ t := (findByName_eq_none.mp h) e (List.mem_cons_self _ _)
    rw [List.cons_append, findByName_cons_neg he]
    exact ih (by rw [← findByName_cons_neg he]; exact h)

lemma findByName_of_mem_nodup {es : List FSEntry} {d : FSEntry}
    (hnd : (rootNames es).Nodup) (hd : d ∈ es) :
    findByName es (nameOf d) = some d := by
  induction es with
  | nil => simp at hd
  | cons e es ih =>
    rcases List.mem_cons.mp hd with rfl | h2
    · exact findByName_cons_pos rfl
    · have hne : nameOf e ≠ nameOf d := by
        intro hcontra
        have : nameOf d ∈ rootNames es := List.mem_map_of_mem nameOf h2
        rw [rootNames, List.map_cons] at hnd
        exact (List.nodup_cons.mp hnd).1 (hcontra ▸ this)
      rw [findByName_cons_neg hne]
      exact ih (List.nodup_cons.mp (by rwa [rootNames, List.map_cons] at hnd)).2 h2

lemma names_addChildToDir (es : List FSEntry) (t : String) (e : FSEntry) :
    rootNames (addChildToDir es t e) = rootNames es := by
  induction es with
  | nil => rfl
  | cons d es ih =>
    by_cases hd : nameOf d = t
    · rw [addChildToDir, if_pos hd]
      simp [rootNames, nameOf_appendChild]
    · rw [addChildToDir, if_neg hd]
      simp only [rootNames, List.map_cons] at ih ⊢
      rw [ih]

lemma mem_addChildToDir_cases {g : FSEntry} {es : List FSEntry} {t : String} {e : FSEntry}
    (h : g ∈ addChildToDir es t e) :
    g ∈ es ∨ ∃ d, d ∈ es ∧ nameOf d = t ∧ g = appendChild d e := by
  induction es with
  | nil => simp [addChildToDir] at h
  | cons d es ih =>
    by_cases hd : nameOf d = t
    · rw [addChildToDir, if_pos hd] at h
      rcases List.mem_cons.mp h with rfl | h2
      · exact Or.inr ⟨d, List.mem_cons_self _ _, hd, rfl⟩
      · exact Or.inl (List.mem_cons_of_mem d h2)
    · rw [addChildToDir, if_neg hd] at h
      rcases List.mem_cons.mp h with rfl | h2
      · exact Or.inl (List.mem_cons_self _ _)
      · rcases ih h2 with h3 | ⟨d2, hd2, hd3, hd4⟩
        · exact Or.inl (List.mem_cons_of_mem d h3)
        · exact Or.inr ⟨d2, List.mem_cons_of_mem d hd2, hd3, hd4⟩

lemma mem_addChildToDir_of_ne {g : FSEntry} {es : List FSEntry} {t : String} {e : FSEntry}
    (hg : g ∈ es) (hne : nameOf g ≠ t) : g ∈ addChildToDir es t e := by
  induction es with
  | nil => simp at hg
  | cons d es ih =>
    by_cases hd : nameOf d = t
    · rw [addChildToDir, if_pos hd]
      rcases List.mem_cons.mp hg with rfl | h2
      · exact absurd hd hne
      · exact List.mem_cons_of_mem _ h2
    · rw [addChildToDir, if_neg hd]
      rcases List.mem_cons.mp hg with rfl | h2
      · exact List.mem_cons_self _ _
      · exact List.mem_cons_of_mem _ (ih h2)

lemma findByName_addChildToDir_ne {es : List FSEntry} {t t0 : String} {e : FSEntry}
    (hne : t0 ≠ t) : findByName (addChildToDir es t e) t0 = findByName es t0 := by
  induction es with
  | nil => rfl
  | cons d es ih =>
    by_cases hd : nameOf d = t
    · rw [addChildToDir, if_pos hd, findByName_cons_neg, findByName_cons_neg]
      · rw [hd]; exact fun h => hne h.symm
      · rw [nameOf_appendChild, hd]; exact fun h => hne h.symm
    · by_cases ht0 : nameOf d = t0
      · rw [addChildToDir, if_neg hd, findByName_cons_pos ht0, findByName_cons_pos ht0]
      · rw [addChildToDir, if_neg hd, findByName_cons_neg ht0, findByName_cons_neg ht0, ih]

lemma findByName_addChildToDir_self {es : List FSEntry} {t : String} {e d : FSEntry}
    (h : findByName es t = some d) :
    findByName (addChildToDir es t e) t = some (appendChild d e) := by
  induction es with
  | nil => simp [findByName] at h
  | cons d0 es ih =>
    by_cases hd : nameOf d0 = t
    · rw [findByName_cons_pos hd] at h
      injection h with h
      subst h
      rw [addChildToDir, if_pos hd, findByName_cons_pos (by rw [nameOf_appendChild]; exact hd)]
    · rw [findByName_cons_neg hd] at h
      rw [addChildToDir, if_neg hd, findByName_cons_neg hd]
      exact ih h

/-! ### Sync-pass lemmas -/

/-- The sync pass applied to a single listing element. -/
def syncIfDir (e : FSEntry) : FSEntry :=
  if isDirE e then sync_folder_mtime e else e

lemma syncPass_eq_map (es : List FSEntry) : syncPass es = es.map syncIfDir := by
  simp [syncPass, syncIfDir]

lemma nameOf_syncIfDir (e : FSEntry) : nameOf (syncIfDir e) = nameOf e := by
  cases e with
  | file n c m => rfl
  | other n m => rfl
  | dir n a m cs =>
    cases hm : (rglobL cs).max? <;>
      simp [syncIfDir, isDirE, sync_folder_mtime, hm, nameOf]

lemma isDirE_syncIfDir (e : FSEntry) : isDirE (syncIfDir e) = isDirE e := by
  cases e with
  | file n c m => rfl
  | other n m => rfl
  | dir n a m cs =>
    cases hm : (rglobL cs).max? <;>
      simp [syncIfDir, isDirE, sync_folder_mtime, hm]

lemma childrenOf_syncIfDir (e : FSEntry) : childrenOf (syncIfDir e) = childrenOf e := by
  cases e with
  | file n c m => rfl
  | other n m => rfl
  | dir n a m cs =>
    cases hm : (rglobL cs).max? <;>
      simp [syncIfDir, isDirE, sync_folder_mtime, hm, childrenOf]

lemma syncIfDir_of_not_dir {e : FSEntry} (h : isDirE e = false) : syncIfDir e = e := by
  simp [syncIfDir, h]

lemma findByName_syncPass (es : List FSEntry) (t : String) :
    findByName (syncPass es) t = (findByName es t).map syncIfDir := by
  rw [syncPass_eq_map]
  induction es with
  | nil => rfl
  | cons e es ih =>
    by_cases he : nameOf e = t
    · rw [List.map_cons, findByName_cons_pos (by rw [nameOf_syncIfDir]; exact he),
        findByName_cons_pos he]
      rfl
    · rw [List.map_cons, findByName_cons_neg (by rw [nameOf_syncIfDir]; exact he),
        findByName_cons_neg he, ih]

/-! ### Scan-step characterization -/

/-- Exhaustive case analysis of one successful scan step: a directory is
skipped unchanged; a falsy title only records the extractor call; a
destination collision records a skip line; otherwise the entry is moved
into an existing or a freshly created TitleFolder. -/
lemma processEntry_cases {st st' : OrgState} {e : FSEntry}
    (h : processEntry st e = some st') :
    (isDirE e = true ∧ st' = st) ∨
    (isDirE e = false ∧
      (((extract_title (nameOf e) = none ∨ extract_title (nameOf e) = some "") ∧
        st' = { st with calls := st.calls ++ [nameOf e] }) ∨
      (∃ t d, extract_title (nameOf e) = some t ∧ t ≠ "" ∧
        findByName st.entries t = some d ∧ isDirE d = true ∧
        childNamed (childrenOf d) (nameOf e) = true ∧
        st' = { st with
                log := st.log ++ [.skippedL t (nameOf e)],
                calls := st.calls ++ [nameOf e] }) ∨
      (∃ t d, extract_title (nameOf e) = some t ∧ t ≠ "" ∧
        findByName st.entries t = some d ∧ isDirE d = true ∧
        childNamed (childrenOf d) (nameOf e) = false ∧
        st' = { st with
                entries := addChildToDir (eraseByName st.entries (nameOf e)) t e,
                moved := st.moved + 1, log := st.log ++ [.movedL (nameOf e) t],
                calls := st.calls ++ [nameOf e] }) ∨
      (∃ t, extract_title (nameOf e) = some t ∧ t ≠ "" ∧
        findByName st.entries t = none ∧
        st' = { st with
                entries := addChildToDir
                  (eraseByName (st.entries ++ [.dir t 0 0 []]) (nameOf e)) t e,
                moved := st.moved + 1, log := st.log ++ [.movedL (nameOf e) t],
                calls := st.calls ++ [nameOf e] }))) := by
  unfold processEntry at h
  split at h
  · rename_i hdir
    exact Or.inl ⟨hdir, (Option.some_inj.mp h).symm⟩
  · rename_i hdir
    right
    refine ⟨Bool.not_eq_true _ ▸ Bool.of_not_eq_true hdir, ?_⟩
    split at h
    · rename_i hti
      exact Or.inl ⟨Or.inl hti, (Option.some_inj.mp h).symm⟩
    · rename_i t hti
      split at h
      · rename_i hemp
        subst hemp
        exact Or.inl ⟨Or.inr hti, (Option.some_inj.mp h).symm⟩
      · rename_i hemp
        right
        split at h
        · exact absurd h (by simp)
        · rename_i es1 hmk
          unfold mkdirExistOk at hmk
          split at hmk
          · rename_i d hfind
            split at hmk
            · rename_i hd
              have hes1 : es1 = st.entries := (Option.some_inj.mp hmk).symm
              subst hes1
              rw [hfind] at h
              simp only [Option.getD_some] at h
              split at h
              · rename_i hch
                exact Or.inl ⟨t, d, hti, hemp, hfind, hd, hch,
                  (Option.some_inj.mp h).symm⟩
              · rename_i hch
                exact Or.inr (Or.inl ⟨t, d, hti, hemp, hfind, hd,
                  Bool.not_eq_true _ ▸ Bool.of_not_eq_true hch,
                  (Option.some_inj.mp h).symm⟩)
            · exact absurd hmk (by simp)
          · rename_i hfind
            have hes1 : es1 = st.entries ++ [FSEntry.dir t 0 0 []] :=
              (Option.some_inj.mp hmk).symm
            subst hes1
            have hfind2 : findByName (st.entries ++ [FSEntry.dir t 0 0 []]) t
                = some (FSEntry.dir t 0 0 []) := by
              rw [findByName_append_none hfind]
              exact findByName_cons_pos rfl
            rw [hfind2] at h
            simp only [Option.getD_some] at h
            rw [if_neg (by simp [childNamed, childrenOf])] at h
            exact Or.inr (Or.inr ⟨t, hti, hemp, hfind, (Option.some_inj.mp h).symm⟩)

/-! ### Derived step lemmas -/

/-- Recognizer for the trailing summary line. -/
def isSummaryL : LogLine → Bool
  | .summaryL _ => true
  | _ => false

lemma processEntry_calls {st st' : OrgState} {e : FSEntry}
    (h : processEntry st e = some st') :
    st'.calls = st.calls ++ (if isDirE e then [] else [nameOf e]) := by
  rcases processEntry_cases h with ⟨hd, rfl⟩ | ⟨hd, hcase⟩
  · simp [hd]
  · rw [hd]
    rcases hcase with ⟨-, rfl⟩ | ⟨t, d, -, -, -, -, -, rfl⟩ |
      ⟨t, d, -, -, -, -, -, rfl⟩ | ⟨t, -, -, -, rfl⟩ <;> simp

lemma processEntry_log {st st' : OrgState} {e : FSEntry}
    (h : processEntry st e = some st') :
    ∃ tail, st'.log = st.log ++ tail ∧ ∀ x ∈ tail, isSummaryL x = false := by
  rcases processEntry_cases h with ⟨hd, rfl⟩ | ⟨hd, hcase⟩
  · exact ⟨[], by simp, by simp⟩
  · rcases hcase with ⟨-, rfl⟩ | ⟨t, d, -, -, -, -, -, rfl⟩ |
      ⟨t, d, -, -, -, -, -, rfl⟩ | ⟨t, -, -, -, rfl⟩
    · exact ⟨[], by simp, by simp⟩
    · exact ⟨[.skippedL t (nameOf e)], by simp, by simp [isSummaryL]⟩
    · exact ⟨[.movedL (nameOf e) t], by simp, by simp [isSummaryL]⟩
    · exact ⟨[.movedL (nameOf e) t], by simp, by simp [isSummaryL]⟩

lemma scanPass_calls {l : List FSEntry} : ∀ {st st' : OrgState},
    scanPass st l = some st' →
    st'.calls = st.calls ++ (l.filter (fun e => !isDirE e)).map nameOf := by
  induction l with
  | nil =>
    intro st st' h
    simp only [scanPass] at h
    simp [(Option.some_inj.mp h).symm]
  | cons e es ih =>
    intro st st' h
    simp only [scanPass] at h
    split at h
    · exact absurd h (by simp)
    · rename_i st1 hst1
      rw [ih h, processEntry_calls hst1]
      cases hd : isDirE e <;> simp [List.filter_cons, hd]

lemma scanPass_log {l : List FSEntry} : ∀ {st st' : OrgState},
    scanPass st l = some st' →
    ∃ tail, st'.log = st.log ++ tail ∧ ∀ x ∈ tail, isSummaryL x = false := by
  induction l with
  | nil =>
    intro st st' h
    simp only [scanPass] at h
    exact ⟨[], by simp [(Option.some_inj.mp h).symm], by simp⟩
  | cons e es ih =>
    intro st st' h
    simp only [scanPass] at h
    split at h
    · exact absurd h (by simp)
    · rename_i st1 hst1
      obtain ⟨t1, ht1, ht1s⟩ := processEntry_log hst1
      obtain ⟨t2, ht2, ht2s⟩ := ih h
      refine ⟨t1 ++ t2, ?_, ?_⟩
      · rw [ht2, ht1, List.append_assoc]
      · intro x hx
        rcases List.mem_append.mp hx with hx | hx
        · exact ht1s x hx
        · exact ht2s x hx

/-! ### C9: what the extractor is called on -/

/-- C9 counterexample: a named pipe (a non-regular, non-directory entry)
at the root is passed to `extract_title` — its name is recorded in the
call list — refuting the claim that only verified regular files reach
the extractor. -/
theorem organise_calls_nonregular_cex :
    (organise [FSEntry.other "episode.fifo" 0]).map OrgState.calls
      = some ["episode.fifo"] ∧
    isFileE (FSEntry.other "episode.fifo" 0) = false ∧
    isDirE (FSEntry.other "episode.fifo" 0) = false :=
  ⟨rfl, rfl, rfl⟩

/-- C9 (amended): during the scan pass, `extract_title` is called exactly
on the non-directory entries of the root listing, in order — no directory
name is ever passed, but non-regular non-directory entries (named pipes
and the like) are passed, since the code only checks `is_dir()`. -/
theorem organise_calls (es : List FSEntry) (st1 : OrgState)
    (h : organise es = some st1) :
    st1.calls = (es.filter (fun e => !isDirE e)).map nameOf ∧
    ∀ n ∈ st1.calls, ∃ e, e ∈ es ∧ isDirE e = false ∧ nameOf e = n := by
  simp only [organise] at h
  split at h
  · exact absurd h (by simp)
  · rename_i st hst
    have hcalls : st1.calls = st.calls := by rw [← Option.some_inj.mp h]
    have hc := scanPass_calls hst
    simp only [List.nil_append] at hc
    constructor
    · rw [hcalls, hc]
    · intro n hn
      rw [hcalls, hc] at hn
      obtain ⟨e, he, hne⟩ := List.mem_map.mp hn
      exact ⟨e, (List.mem_filter.mp he).1,
        by simpa using (List.mem_filter.mp he).2, hne⟩

/-- Closed instance of `organise_calls`: on a root with one directory and
one loose file, only the file's name reaches the extractor. -/
theorem organise_calls_witness :
    ∃ st1, organise [FSEntry.dir "D" 0 0 [], FSEntry.file "x.txt" "c" 1] = some st1 ∧
      st1.calls = ["x.txt"] := by
  refine ⟨_, rfl, ?_⟩
  have := organise_calls [FSEntry.dir "D" 0 0 [], FSEntry.file "x.txt" "c" 1] _ rfl
  rw [this.1]
  rfl

/-! ### C10: empty extracted titles -/

lemma processEntry_names_kept {st st' : OrgState} {e : FSEntry}
    (h : processEntry st e = some st')
    (hne : ∀ g ∈ st.entries, nameOf g ≠ "") :
    ∀ g ∈ st'.entries, nameOf g ≠ "" := by
  rcases processEntry_cases h with ⟨hd, rfl⟩ | ⟨hd, hcase⟩
  · exact hne
  · rcases hcase with ⟨-, rfl⟩ | ⟨t, d, -, -, -, -, -, rfl⟩ |
      ⟨t, d, hti, hemp, hfind, hdd, hch, rfl⟩ | ⟨t, hti, hemp, hfind, rfl⟩
    · exact hne
    · exact hne
    · intro g hg
      rcases mem_addChildToDir_cases hg with hg2 | ⟨d2, hd2, hd2n, rfl⟩
      · exact hne g (mem_of_mem_eraseByName hg2)
      · rw [nameOf_appendChild]
        exact hne d2 (mem_of_mem_eraseByName hd2)
    · intro g hg
      have haux : ∀ g2, g2 ∈ st.entries ++ [FSEntry.dir t 0 0 []] → nameOf g2 ≠ "" := by
        intro g2 hg2
        rcases List.mem_append.mp hg2 with hg2 | hg2
        · exact hne g2 hg2
        · rw [List.mem_singleton.mp hg2]
          exact hemp
      rcases mem_addChildToDir_cases hg with hg2 | ⟨d2, hd2, hd2n, rfl⟩
      · exact haux g (mem_of_mem_eraseByName hg2)
      · rw [nameOf_appendChild]
        exact haux d2 (mem_of_mem_eraseByName hd2)

lemma scanPass_names_kept {l : List FSEntry} : ∀ {st st' : OrgState},
    scanPass st l = some st' → (∀ g ∈ st.entries, nameOf g ≠ "") →
    ∀ g ∈ st'.entries, nameOf g ≠ "" := by
  induction l with
  | nil =>
    intro st st' h hne
    simp only [scanPass] at h
    rw [← Option.some_inj.mp h]
    exact hne
  | cons e es ih =>
    intro st st' h hne
    simp only [scanPass] at h
    split at h
    · exact absurd h (by simp)
    · rename_i st1 hst1
      exact ih h (processEntry_names_kept hst1 hne)

/-- C10: a pattern match whose sanitized capture is empty is treated
exactly like a no-match: the scan step leaves the state unchanged apart
from recording the extractor call (the file stays at the root, no folder
is created); the filename `[Group] - 01 [AB].mkv` is a concrete such
input; and a TitleFolder with an empty name is never created — a root
with no empty-named entry still has none after `organise`. -/
theorem empty_title_skipped (st : OrgState) (e : FSEntry) :
    (isDirE e = false → extract_title (nameOf e) = some "" →
      processEntry st e = some { st with calls := st.calls ++ [nameOf e] }) ∧
    extract_title "[Group] - 01 [AB].mkv" = some "" ∧
    (∀ es st1, (∀ g ∈ es, nameOf g ≠ "") → organise es = some st1 →
      ∀ g ∈ st1.entries, nameOf g ≠ "") := by
  refine ⟨?_, by decide, ?_⟩
  · intro hdir hti
    unfold processEntry
    rw [if_neg (by simp [hdir]), hti]
    rfl
  · intro es st1 hne h
    simp only [organise] at h
    split at h
    · exact absurd h (by simp)
    · rename_i st2 hst2
      have h2 := scanPass_names_kept hst2 hne
      rw [← Option.some_inj.mp h]
      intro g hg
      rw [syncPass_eq_map] at hg
      obtain ⟨g0, hg0, rfl⟩ := List.mem_map.mp hg
      rw [nameOf_syncIfDir]
      exact h2 g0 hg0

/-- Closed instance of `empty_title_skipped`: the scan step on the file
`[Group] - 01 [AB].mkv` at an empty root only records the extractor
call. -/
theorem empty_title_skipped_witness :
    processEntry ⟨[FSEntry.file "[Group] - 01 [AB].mkv" "c" 1], 0, [], []⟩
        (FSEntry.file "[Group] - 01 [AB].mkv" "c" 1)
      = some ⟨[FSEntry.file "[Group] - 01 [AB].mkv" "c" 1], 0, [],
              ["[Group] - 01 [AB].mkv"]⟩ :=
  (empty_title_skipped ⟨[FSEntry.file "[Group] - 01 [AB].mkv" "c" 1], 0, [], []⟩
      (FSEntry.file "[Group] - 01 [AB].mkv" "c" 1)).1 rfl (by decide)

/-! ### Scan-pass invariant -/

/-- An entry the scan loop will not move: no title, an empty (falsy)
title, or a destination collision with an existing TitleFolder. -/
def skippable (es : List FSEntry) (f : FSEntry) : Prop :=
  extract_title (nameOf f) = none ∨ extract_title (nameOf f) = some "" ∨
  ∃ t d, extract_title (nameOf f) = some t ∧ findByName es t = some d ∧
    isDirE d = true ∧ childNamed (childrenOf d) (nameOf f) = true

/-- Every directory reachable by name lookup persists, keeps its name and
kind, and its old children stay in place (new ones are only appended). -/
def dirPersists (es es2 : List FSEntry) : Prop :=
  ∀ t d, findByName es t = some d → isDirE d = true →
    ∃ d2, findByName es2 t = some d2 ∧ isDirE d2 = true ∧
      ∃ tail, childrenOf d2 = childrenOf d ++ tail

lemma dirPersists_refl (es : List FSEntry) : dirPersists es es := by
  intro t d hf hd
  exact ⟨d, hf, hd, [], by simp⟩

lemma dirPersists_trans {es1 es2 es3 : List FSEntry}
    (h1 : dirPersists es1 es2) (h2 : dirPersists es2 es3) :
    dirPersists es1 es3 := by
  intro t d hf hd
  obtain ⟨d2, hf2, hd2, t2, hc2⟩ := h1 t d hf hd
  obtain ⟨d3, hf3, hd3, t3, hc3⟩ := h2 t d2 hf2 hd2
  exact ⟨d3, hf3, hd3, t2 ++ t3, by rw [hc3, hc2, List.append_assoc]⟩

lemma childNamed_append_left {cs : List FSEntry} {n : String}
    (h : childNamed cs n = true) (l2 : List FSEntry) :
    childNamed (cs ++ l2) n = true := by
  simp only [childNamed] at h ⊢
  simp [List.any_append, h]

lemma skippable_mono {es es2 : List FSEntry} {f : FSEntry}
    (hdp : dirPersists es es2) (h : skippable es f) : skippable es2 f := by
  rcases h with h | h | ⟨t, d, hti, hfind, hd, hch⟩
  · exact Or.inl h
  · exact Or.inr (Or.inl h)
  · obtain ⟨d2, hf2, hd2, tail, hc2⟩ := hdp t d hfind hd
    refine Or.inr (Or.inr ⟨t, d2, hti, hf2, hd2, ?_⟩)
    rw [hc2]
    exact childNamed_append_left hch tail

lemma findByName_append_some {es : List FSEntry} {t : String} {d : FSEntry}
    (h : findByName es t = some d) (l2 : List FSEntry) :
    findByName (es ++ l2) t = some d := by
  induction es with
  | nil => exact absurd h (by simp [findByName])
  | cons e es ih =>
    by_cases he : nameOf e = t
    · rw [findByName_cons_pos he] at h
      rw [List.cons_append, findByName_cons_pos he]
      exact h
    · rw [findByName_cons_neg he] at h
      rw [List.cons_append, findByName_cons_neg he]
      exact ih h

lemma eq_of_mem_name_nodup {es : List FSEntry} {a b : FSEntry}
    (hnd : (rootNames es).Nodup) (ha : a ∈ es) (hb : b ∈ es)
    (hn : nameOf a = nameOf b) : a = b := by
  have h1 := findByName_of_mem_nodup hnd ha
  have h2 := findByName_of_mem_nodup hnd hb
  rw [hn, h2] at h1
  exact (Option.some_inj.mp h1).symm

lemma nameOf_ne_of_mem_erase {es : List FSEntry} {g : FSEntry} {n : String}
    (hnd : (rootNames es).Nodup) (hg : g ∈ eraseByName es n) : nameOf g ≠ n := by
  have h1 : nameOf g ∈ rootNames (eraseByName es n) :=
    List.mem_map_of_mem nameOf hg
  rw [names_eraseByName] at h1
  exact ((List.Nodup.mem_erase_iff hnd).mp h1).1

lemma dirPersists_syncPass (es : List FSEntry) : dirPersists es (syncPass es) := by
  intro t d hf hd
  refine ⟨syncIfDir d, ?_, by rw [isDirE_syncIfDir]; exact hd, [],
    by rw [childrenOf_syncIfDir]; simp⟩
  rw [findByName_syncPass, hf]
  rfl

/-- Loop invariant of the scan pass: `pend` is the not-yet-visited part of
the snapshot.  Sibling names stay unique; pending non-directories are
still at the root; and every non-directory at the root is either pending
or already settled as skippable. -/
structure ScanInv (pend : List FSEntry) (st : OrgState) : Prop where
  nodup : (rootNames st.entries).Nodup
  pnodup : (pend.map nameOf).Nodup
  pmem : ∀ e ∈ pend, isDirE e = true ∨ e ∈ st.entries
  settled : ∀ f ∈ st.entries, isDirE f = false → f ∈ pend ∨ skippable st.entries f

lemma scanInv_step {pend : List FSEntry} {st st' : OrgState} {e : FSEntry}
    (hinv : ScanInv (e :: pend) st) (h : processEntry st e = some st') :
    ScanInv pend st' ∧ dirPersists st.entries st'.entries := by
  obtain ⟨hnd, hpnd, hpm, hset⟩ := hinv
  have hpc := List.nodup_cons.mp (by rw [List.map_cons] at hpnd; exact hpnd)
  have hename : nameOf e ∉ pend.map nameOf := hpc.1
  have hpnd2 : (pend.map nameOf).Nodup := hpc.2
  rcases processEntry_cases h with ⟨hd, rfl⟩ | ⟨hdir, hcase⟩
  · -- directory: state unchanged
    refine ⟨⟨hnd, hpnd2, ?_, ?_⟩, dirPersists_refl _⟩
    · intro e2 he2
      exact hpm e2 (List.mem_cons_of_mem e he2)
    · intro f hf hfd
      rcases hset f hf hfd with hf2 | hf2
      · rcases List.mem_cons.mp hf2 with rfl | hf3
        · rw [hd] at hfd
          simp at hfd
        · exact Or.inl hf3
      · exact Or.inr hf2
  · have hmem_e : e ∈ st.entries := by
      rcases hpm e (List.mem_cons_self e pend) with hh | hh
      · rw [hdir] at hh
        simp at hh
      · exact hh
    have hpend_mem : ∀ e2 ∈ pend, isDirE e2 = false → e2 ∈ st.entries := by
      intro e2 he2 hd2
      rcases hpm e2 (List.mem_cons_of_mem e he2) with hh | hh
      · rw [hd2] at hh
        simp at hh
      · exact hh
    have hpend_ne : ∀ e2 ∈ pend, nameOf e2 ≠ nameOf e := by
      intro e2 he2 hq
      exact hename (hq ▸ List.mem_map_of_mem nameOf he2)
    rcases hcase with ⟨hti0, rfl⟩ | ⟨t, d, hti, hemp, hfind, hd, hch, rfl⟩ |
      ⟨t, d, hti, hemp, hfind, hd, hch, rfl⟩ | ⟨t, hti, hemp, hfind, rfl⟩
    · -- falsy title: entries unchanged
      refine ⟨⟨hnd, hpnd2, ?_, ?_⟩, dirPersists_refl _⟩
      · intro e2 he2
        exact hpm e2 (List.mem_cons_of_mem e he2)
      · intro f hf hfd
        rcases hset f hf hfd with hf2 | hf2
        · rcases List.mem_cons.mp hf2 with rfl | hf3
          · rcases hti0 with hq | hq
            · exact Or.inr (Or.inl hq)
            · exact Or.inr (Or.inr (Or.inl hq))
          · exact Or.inl hf3
        · exact Or.inr hf2
    · -- destination collision: entries unchanged
      refine ⟨⟨hnd, hpnd2, ?_, ?_⟩, dirPersists_refl _⟩
      · intro e2 he2
        exact hpm e2 (List.mem_cons_of_mem e he2)
      · intro f hf hfd
        rcases hset f hf hfd with hf2 | hf2
        · rcases List.mem_cons.mp hf2 with rfl | hf3
          · exact Or.inr (Or.inr (Or.inr ⟨t, d, hti, hfind, hd, hch⟩))
          · exact Or.inl hf3
        · exact Or.inr hf2
    · -- move into an existing TitleFolder
      have htn : t ≠ nameOf e := by
        intro hq
        rw [hq, findByName_of_mem_nodup hnd hmem_e] at hfind
        obtain rfl := Option.some_inj.mp hfind
        rw [hdir] at hd
        simp at hd
      have hdp : dirPersists st.entries
          (addChildToDir (eraseByName st.entries (nameOf e)) t e) := by
        intro t0 d0 hf0 hd0
        by_cases ht0 : t0 = t
        · subst ht0
          rw [hf0] at hfind
          obtain rfl := Option.some_inj.mp hfind
          refine ⟨appendChild d0 e, ?_, isDirE_appendChild hd0 e, [e],
            childrenOf_appendChild hd0 e⟩
          refine findByName_addChildToDir_self ?_
          rw [findByName_eraseByName_ne (fun hq => htn hq.symm)]
          exact hf0
        · have ht0n : t0 ≠ nameOf e := by
            intro hq
            rw [hq, findByName_of_mem_nodup hnd hmem_e] at hf0
            obtain rfl := Option.some_inj.mp hf0
            rw [hdir] at hd0
            simp at hd0
          refine ⟨d0, ?_, hd0, [], by simp⟩
          rw [findByName_addChildToDir_ne ht0,
            findByName_eraseByName_ne (fun hq => ht0n hq.symm)]
          exact hf0
      refine ⟨⟨?_, hpnd2, ?_, ?_⟩, hdp⟩
      · show (rootNames (addChildToDir (eraseByName st.entries (nameOf e)) t e)).Nodup
        rw [names_addChildToDir, names_eraseByName]
        exact List.Nodup.erase _ hnd
      · intro e2 he2
        cases hd2 : isDirE e2 with
        | true => exact Or.inl rfl
        | false =>
          right
          have he2m : e2 ∈ st.entries := hpend_mem e2 he2 hd2
          have hne_t : nameOf e2 ≠ t := by
            intro hq
            have : e2 = d := eq_of_mem_name_nodup hnd he2m (findByName_mem hfind).1
              (by rw [hq, (findByName_mem hfind).2])
            rw [this, hd] at hd2
            exact Bool.true_eq_false.mp hd2
          exact mem_addChildToDir_of_ne
            (mem_eraseByName_of_ne he2m (hpend_ne e2 he2)) hne_t
      · intro f hf hfd
        rcases mem_addChildToDir_cases hf with hf1 | ⟨d2, hd2, hd2name, rfl⟩
        · have hfst : f ∈ st.entries := mem_of_mem_eraseByName hf1
          rcases hset f hfst hfd with hf2 | hf2
          · rcases List.mem_cons.mp hf2 with rfl | hf3
            · exact absurd rfl (nameOf_ne_of_mem_erase hnd hf1)
            · exact Or.inl hf3
          · exact Or.inr (skippable_mono hdp hf2)
        · have hd2st : d2 ∈ st.entries := mem_of_mem_eraseByName hd2
          have : d2 = d := eq_of_mem_name_nodup hnd hd2st (findByName_mem hfind).1
            (by rw [hd2name, (findByName_mem hfind).2])
          subst this
          rw [isDirE_appendChild hd e] at hfd
          exact absurd hfd (by simp)
    · -- move into a freshly created TitleFolder
      have htnot : ∀ g ∈ st.entries, nameOf g ≠ t := findByName_eq_none.mp hfind
      have htn : t ≠ nameOf e := by
        intro hq
        rw [hq, findByName_of_mem_nodup hnd hmem_e] at hfind
        exact absurd hfind (by simp)
      have hnd_app : (rootNames (st.entries ++ [FSEntry.dir t 0 0 []])).Nodup := by
        rw [rootNames, List.map_append]
        rw [List.nodup_append]
        refine ⟨hnd, by simp, ?_⟩
        intro x hx
        simp only [List.map_cons, List.map_nil, List.mem_singleton]
        intro hq
        obtain ⟨g, hg, hgn⟩ := List.mem_map.mp hx
        subst hq
        exact htnot g hg hgn
      have hdp : dirPersists st.entries
          (addChildToDir
            (eraseByName (st.entries ++ [FSEntry.dir t 0 0 []]) (nameOf e)) t e) := by
        intro t0 d0 hf0 hd0
        have ht0 : t0 ≠ t := by
          intro hq
          exact htnot d0 (findByName_mem hf0).1 (by rw [(findByName_mem hf0).2, hq])
        have ht0n : t0 ≠ nameOf e := by
          intro hq
          rw [hq, findByName_of_mem_nodup hnd hmem_e] at hf0
          obtain rfl := Option.some_inj.mp hf0
          rw [hdir] at hd0
          simp at hd0
        refine ⟨d0, ?_, hd0, [], by simp⟩
        rw [findByName_addChildToDir_ne ht0,
          findByName_eraseByName_ne (fun hq => ht0n hq.symm)]
        exact findByName_append_some hf0 _
      refine ⟨⟨?_, hpnd2, ?_, ?_⟩, hdp⟩
      · show (rootNames (addChildToDir
          (eraseByName (st.entries ++ [FSEntry.dir t 0 0 []]) (nameOf e)) t e)).Nodup
        rw [names_addChildToDir, names_eraseByName]
        exact List.Nodup.erase _ hnd_app
      · intro e2 he2
        cases hd2 : isDirE e2 with
        | true => exact Or.inl rfl
        | false =>
          right
          have he2m : e2 ∈ st.entries := hpend_mem e2 he2 hd2
          exact mem_addChildToDir_of_ne
            (mem_eraseByName_of_ne (List.mem_append_left _ he2m) (hpend_ne e2 he2))
            (htnot e2 he2m)
      · intro f hf hfd
        rcases mem_addChildToDir_cases hf with hf1 | ⟨d2, hd2, hd2name, rfl⟩
        · have hfapp : f ∈ st.entries ++ [FSEntry.dir t 0 0 []] :=
            mem_of_mem_eraseByName hf1
          have hfst : f ∈ st.entries := by
            rcases List.mem_append.mp hfapp with hh | hh
            · exact hh
            · rw [List.mem_singleton.mp hh] at hfd
              exact absurd hfd (by simp [isDirE])
          rcases hset f hfst hfd with hf2 | hf2
          · rcases List.mem_cons.mp hf2 with rfl | hf3
            · exact absurd rfl (nameOf_ne_of_mem_erase hnd_app hf1)
            · exact Or.inl hf3
          · exact Or.inr (skippable_mono hdp hf2)
        · have hd2app : d2 ∈ st.entries ++ [FSEntry.dir t 0 0 []] :=
            mem_of_mem_eraseByName hd2
          have hd2eq : d2 = FSEntry.dir t 0 0 [] := by
            rcases List.mem_append.mp hd2app with hh | hh
            · exact absurd hd2name (htnot d2 hh)
            · exact List.mem_singleton.mp hh
          subst hd2eq
          rw [isDirE_appendChild (by simp [isDirE]) e] at hfd
          exact absurd hfd (by simp)

lemma scanInv_run {l : List FSEntry} : ∀ {st st' : OrgState}, ScanInv l st →
    scanPass st l = some st' →
    ScanInv [] st' ∧ dirPersists st.entries st'.entries := by
  induction l with
  | nil =>
    intro st st' hinv h
    simp only [scanPass] at h
    obtain rfl := Option.some_inj.mp h
    exact ⟨hinv, dirPersists_refl _⟩
  | cons e es ih =>
    intro st st' hinv h
    simp only [scanPass] at h
    split at h
    · exact absurd h (by simp)
    · rename_i st1 hst1
      obtain ⟨hinv1, hdp1⟩ := scanInv_step hinv hst1
      obtain ⟨hinv2, hdp2⟩ := ih hinv1 h
      exact ⟨hinv2, dirPersists_trans hdp1 hdp2⟩

/-! ### Skip characterizations and the second run -/

lemma processEntry_dir {st : OrgState} {e : FSEntry} (hd : isDirE e = true) :
    processEntry st e = some st := by
  unfold processEntry
  rw [if_pos hd]

lemma processEntry_collision {st : OrgState} {e d : FSEntry} {t : String}
    (hdir : isDirE e = false) (hti : extract_title (nameOf e) = some t) (hemp : t ≠ "")
    (hfind : findByName st.entries t = some d) (hd : isDirE d = true)
    (hch : childNamed (childrenOf d) (nameOf e) = true) :
    processEntry st e = some { st with
      log := st.log ++ [.skippedL t (nameOf e)],
      calls := st.calls ++ [nameOf e] } := by
  have hmk : mkdirExistOk st.entries t = some st.entries := by
    unfold mkdirExistOk
    rw [hfind]
    simp [hd]
  unfold processEntry
  rw [if_neg (by simp [hdir])]
  simp only [hti]
  rw [if_neg hemp, hmk]
  simp [hfind, hch]

lemma processEntry_skip_noop {st : OrgState} {e : FSEntry}
    (hdir : isDirE e = false) (hsk : skippable st.entries e) :
    ∃ st', processEntry st e = some st' ∧
      st'.entries = st.entries ∧ st'.moved = st.moved := by
  rcases hsk with hti | hti | ⟨t, d, hti, hfind, hd, hch⟩
  · refine ⟨{ st with calls := st.calls ++ [nameOf e] }, ?_, rfl, rfl⟩
    unfold processEntry
    rw [if_neg (by simp [hdir]), hti]
  · refine ⟨{ st with calls := st.calls ++ [nameOf e] }, ?_, rfl, rfl⟩
    unfold processEntry
    rw [if_neg (by simp [hdir]), hti]
    rfl
  · by_cases hemp : t = ""
    · subst hemp
      refine ⟨{ st with calls := st.calls ++ [nameOf e] }, ?_, rfl, rfl⟩
      unfold processEntry
      rw [if_neg (by simp [hdir]), hti]
      rfl
    · exact ⟨_, processEntry_collision hdir hti hemp hfind hd hch, rfl, rfl⟩

lemma scanPass_noop {l : List FSEntry} : ∀ (st : OrgState),
    (∀ e ∈ l, isDirE e = true ∨ skippable st.entries e) →
    ∃ st', scanPass st l = some st' ∧
      st'.entries = st.entries ∧ st'.moved = st.moved := by
  induction l with
  | nil =>
    intro st _
    exact ⟨st, by simp [scanPass], rfl, rfl⟩
  | cons e es ih =>
    intro st hall
    cases hd : isDirE e with
    | true =>
      obtain ⟨st', h1, h2, h3⟩ := ih st (fun e2 he2 => hall e2 (List.mem_cons_of_mem _ he2))
      refine ⟨st', ?_, h2, h3⟩
      simp only [scanPass]
      rw [processEntry_dir hd]
      exact h1
    | false =>
      have hsk : skippable st.entries e := by
        rcases hall e (List.mem_cons_self e es) with hh | hh
        · rw [hd] at hh
          exact absurd hh (by simp)
        · exact hh
      obtain ⟨st1, h1, h2, h3⟩ := processEntry_skip_noop hd hsk
      obtain ⟨st', h4, h5, h6⟩ := ih st1 (by
        rw [h2]
        exact fun e2 he2 => hall e2 (List.mem_cons_of_mem _ he2))
      refine ⟨st', ?_, by rw [h5, h2], by rw [h6, h3]⟩
      simp only [scanPass]
      rw [h1]
      exact h4

lemma organise_log_shape {es : List FSEntry} {st1 : OrgState}
    (h : organise es = some st1) :
    ∃ tail, st1.log = tail ++ [.summaryL st1.moved] ∧
      ∀ x ∈ tail, isSummaryL x = false := by
  simp only [organise] at h
  split at h
  · exact absurd h (by simp)
  · rename_i st hst
    obtain ⟨tail, ht, hts⟩ := scanPass_log hst
    simp only [List.nil_append] at ht
    obtain rfl := Option.some_inj.mp h
    exact ⟨tail, by rw [ht], hts⟩

/-! ### C8: entry-point exit behavior -/

/-- C8 counterexample: a valid root directory on which the program does
NOT exit zero — the root holds a regular file named `A` next to
`A (2000) x.mkv`, whose extracted title is `A`, so
`dest_dir.mkdir(exist_ok=True)` raises `FileExistsError` (the existing
path is not a directory) and the process dies with a non-zero status and
no summary line. -/
theorem runMain_nonzero_cex :
    (runMain (some [FSEntry.file "A" "c" 1,
                    FSEntry.file "A (2000) x.mkv" "c" 5])).1 = 1 :=
  rfl

/-- C8 (amended): an invalid root (path missing or not a directory) exits
non-zero with an error message before any mutation; a valid root on which
`organise` completes exits zero with the scan log followed by exactly one
trailing summary line carrying the move count; a valid root on which
`organise` raises an uncaught error exits non-zero. -/
theorem runMain_spec :
    runMain none = (1, [LogLine.errorL]) ∧
    (∀ es st1, organise es = some st1 →
      runMain (some es) = (0, st1.log) ∧
      st1.log.getLast? = some (.summaryL st1.moved) ∧
      (st1.log.filter (fun x => isSummaryL x)).length = 1) ∧
    (∀ es, organise es = none → (runMain (some es)).1 = 1) := by
  refine ⟨rfl, ?_, ?_⟩
  · intro es st1 h
    obtain ⟨tail, ht, hts⟩ := organise_log_shape h
    refine ⟨by simp [runMain, h], ?_, ?_⟩
    · rw [ht]
      exact List.getLast?_concat _
    · rw [ht, List.filter_append]
      have h1 : tail.filter (fun x => isSummaryL x) = [] := by
        rw [List.filter_eq_nil_iff]
        intro a ha
        simp [hts a ha]
      rw [h1]
      rfl
  · intro es h
    simp [runMain, h]

/-- Closed instance of `runMain_spec`: organising a root holding only
`randomfile.txt` exits zero with the single summary line `0 moved`. -/
theorem runMain_spec_witness :
    runMain (some [FSEntry.file "randomfile.txt" "data" 7])
      = (0, [LogLine.summaryL 0]) :=
  (runMain_spec.2.1 [FSEntry.file "randomfile.txt" "data" 7]
    ⟨[FSEntry.file "randomfile.txt" "data" 7], 0,
      [LogLine.summaryL 0], ["randomfile.txt"]⟩ rfl).1

/-! ### C1: destination collisions -/

/-- C1: when a processed file's destination TitleFolder already holds an
entry of the same name, the scan step only emits a skip notice (and
records the extractor call): the root listing, the move counter — and so
every file, in particular the existing destination file with its contents
and mtime — are unchanged; no overwrite and no rename happens.
Run-wide, every directory present at the start survives `organise` with
its name and kind intact and its original children list as an unchanged
prefix (moved files are only appended), so a collision can never touch
the existing file's contents or mtime. -/
theorem organise_collision_skip (st : OrgState) (e : FSEntry) :
    (∀ t d, isDirE e = false → extract_title (nameOf e) = some t → t ≠ "" →
      findByName st.entries t = some d → isDirE d = true →
      childNamed (childrenOf d) (nameOf e) = true →
      processEntry st e = some { st with
        log := st.log ++ [.skippedL t (nameOf e)],
        calls := st.calls ++ [nameOf e] }) ∧
    (∀ es st1, (rootNames es).Nodup → organise es = some st1 →
      ∀ d, d ∈ es → isDirE d = true → ∃ d2, d2 ∈ st1.entries ∧
        nameOf d2 = nameOf d ∧ isDirE d2 = true ∧
        ∃ tail, childrenOf d2 = childrenOf d ++ tail) := by
  constructor
  · intro t d hdir hti hemp hfind hd hch
    exact processEntry_collision hdir hti hemp hfind hd hch
  · intro es st1 hnd h
    simp only [organise] at h
    split at h
    · exact absurd h (by simp)
    · rename_i stS hst
      have hinv0 : ScanInv es ⟨es, 0, [], []⟩ :=
        ⟨hnd, hnd, fun e2 he2 => Or.inr he2, fun f hf _ => Or.inl hf⟩
      obtain ⟨-, hdp⟩ := scanInv_run hinv0 hst
      have hdp2 : dirPersists es st1.entries := by
        obtain rfl := Option.some_inj.mp h
        exact dirPersists_trans hdp (dirPersists_syncPass _)
      intro d hd hdd
      obtain ⟨d2, hf2, hd2, tail, hc2⟩ :=
        hdp2 (nameOf d) d (findByName_of_mem_nodup hnd hd) hdd
      exact ⟨d2, (findByName_mem hf2).1, (findByName_mem hf2).2, hd2, tail, hc2⟩

/-- Closed instance of `organise_collision_skip`: a scan step on
`B (1999) x.mkv` whose TitleFolder `B` already holds a file of that name
emits only the skip notice. -/
theorem organise_collision_skip_witness :
    processEntry
        ⟨[FSEntry.file "B (1999) x.mkv" "c" 1,
          FSEntry.dir "B" 0 0 [FSEntry.file "B (1999) x.mkv" "old" 9]], 0, [], []⟩
        (FSEntry.file "B (1999) x.mkv" "c" 1)
      = some ⟨[FSEntry.file "B (1999) x.mkv" "c" 1,
               FSEntry.dir "B" 0 0 [FSEntry.file "B (1999) x.mkv" "old" 9]], 0,
              [LogLine.skippedL "B" "B (1999) x.mkv"], ["B (1999) x.mkv"]⟩ :=
  (organise_collision_skip
      ⟨[FSEntry.file "B (1999) x.mkv" "c" 1,
        FSEntry.dir "B" 0 0 [FSEntry.file "B (1999) x.mkv" "old" 9]], 0, [], []⟩
      (FSEntry.file "B (1999) x.mkv" "c" 1)).1
    "B" (FSEntry.dir "B" 0 0 [FSEntry.file "B (1999) x.mkv" "old" 9])
    rfl (by decide) (by decide) rfl rfl (by decide)

/-! ### C2: second-run idempotence -/

/-- C2: running the Organizer again immediately after a successful run
moves zero files and reports a summary count of 0 — every non-directory
left at the root after the first run is either unmatched, empty-titled,
or still collides with its TitleFolder, so the second scan changes
nothing.  (Sibling names at the root are unique, as on a real
filesystem.) -/
theorem organise_idempotent (es : List FSEntry) (st1 : OrgState)
    (hnd : (rootNames es).Nodup) (h : organise es = some st1) :
    ∃ st2, organise st1.entries = some st2 ∧ st2.moved = 0 ∧
      st2.log.getLast? = some (LogLine.summaryL 0) := by
  simp only [organise] at h
  split at h
  · exact absurd h (by simp)
  · rename_i stS hst
    have hinv0 : ScanInv es ⟨es, 0, [], []⟩ :=
      ⟨hnd, hnd, fun e2 he2 => Or.inr he2, fun f hf _ => Or.inl hf⟩
    obtain ⟨hinvF, -⟩ := scanInv_run hinv0 hst
    have hsettled : ∀ f ∈ stS.entries, isDirE f = false →
        skippable stS.entries f := by
      intro f hf hfd
      rcases hinvF.settled f hf hfd with h0 | h0
      · exact absurd h0 (by simp)
      · exact h0
    obtain rfl := Option.some_inj.mp h
    have hall : ∀ f ∈ syncPass stS.entries,
        isDirE f = true ∨ skippable (syncPass stS.entries) f := by
      intro f hf
      rw [syncPass_eq_map] at hf
      obtain ⟨f0, hf0, rfl⟩ := List.mem_map.mp hf
      cases hq : isDirE f0 with
      | true =>
        left
        rw [isDirE_syncIfDir]
        exact hq
      | false =>
        right
        rw [syncIfDir_of_not_dir hq]
        exact skippable_mono (dirPersists_syncPass _) (hsettled f0 hf0 hq)
    obtain ⟨stT, h1, h2, h3⟩ := scanPass_noop ⟨syncPass stS.entries, 0, [], []⟩ hall
    refine ⟨{ stT with
              entries := syncPass stT.entries,
              log := stT.log ++ [.summaryL stT.moved] }, ?_, h3, ?_⟩
    · simp only [organise]
      rw [h1]
    · rw [h3]
      exact List.getLast?_concat _

/-- Closed instance of `organise_idempotent`: after organising a root
holding one movie file, a second run moves nothing and reports 0. -/
theorem organise_idempotent_witness :
    ∃ st2, organise [FSEntry.dir "A" 5 5 [FSEntry.file "A (2000) x.mkv" "c" 5]]
        = some st2 ∧ st2.moved = 0 ∧
      st2.log.getLast? = some (LogLine.summaryL 0) :=
  organise_idempotent [FSEntry.file "A (2000) x.mkv" "c" 5]
    ⟨[FSEntry.dir "A" 5 5 [FSEntry.file "A (2000) x.mkv" "c" 5]], 1,
      [LogLine.movedL "A (2000) x.mkv" "A", LogLine.summaryL 1],
      ["A (2000) x.mkv"]⟩
    (by decide) rfl

end Organiser
